import Mathlib

set_option linter.unusedVariables false

/-!
# Verification of the coreset selection utilities (`src/indad/utils.py`)

Shallow embedding of `get_coreset_idx_randomp` and `GaussianBlur` from
`src/indad/utils.py`.

Modelling conventions:

* The working matrix (the matrix `z_lib` after the sparse random
  projection) is a `List (List ℚ)`: a list of rows, each row a list of
  rational coordinates.  Rationals are the exact stand-in for the
  floating point reals of the source.
* The source keeps the vector
  `min_distances = torch.linalg.norm(z_lib - last_item, dim=1)` of
  Euclidean norms and only ever compares its entries (`torch.minimum`,
  `torch.argmax`) or zeroes them.  The embedding tracks the *squares* of
  those norms (`sqDist`, a sum of squares, exactly computable in ℚ); the
  source itself records this equivalence in the commented-out line
  `min_distances = torch.sum(torch.pow(z_lib-last_item, 2), ...)`.
  Since `Real.sqrt` is a strictly monotone map on nonnegatives fixing 0,
  elementwise `min`, `argmax` and zero-forcing commute with it, so the
  squared trace determines the norm trace exactly; theorems that talk
  about Euclidean distances go through `Real.sqrt` of the stored squares.
* `torch.argmax` returns the index of the first occurrence of the
  maximal value (torch documentation); `argmaxList` below implements
  exactly that semantics.
* The `(n, 1)`-shaped `keepdims=True` column vector is flattened to a
  plain list: `torch.argmax` flattens it anyway, and indices agree.
-/

/-- Squared Euclidean distance between two rows
(`torch.linalg.norm(x - y)` squared, i.e. the source's commented
`torch.sum(torch.pow(x - y, 2))`). -/
def sqDist (xs ys : List ℚ) : ℚ :=
  (List.zipWith (fun a b => (a - b) ^ 2) xs ys).sum

/-- Row `i` of the working matrix (`z_lib[i]`). -/
def row (Z : List (List ℚ)) (i : Nat) : List ℚ :=
  Z.getD i []

/-- The broadcast distance computation
`torch.linalg.norm(z_lib - last_item, dim=1)` (squared), where
`last_item = z_lib[idx:idx+1]`. -/
def distancesTo (Z : List (List ℚ)) (idx : Nat) : List ℚ :=
  Z.map (fun r => sqDist r (row Z idx))

/-- Index of the first occurrence of the maximal value of a list
(`torch.argmax` semantics; 0 on the empty list, where the source would
raise a runtime error). -/
def listMax : List ℚ → ℚ
  | [] => 0
  | [x] => x
  | x :: xs => max x (listMax xs)

/-- `torch.argmax`: least index attaining the maximum. -/
def argmaxList : List ℚ → Nat
  | [] => 0
  | [_] => 0
  | x :: xs => if x < listMax xs then argmaxList xs + 1 else 0

/-- Minimum of a list of rationals (0 on the empty list; only ever used
on nonempty lists). -/
def listMinQ : List ℚ → ℚ
  | [] => 0
  | [x] => x
  | x :: xs => min x (listMinQ xs)

/-- Minimum squared Euclidean distance from row `i` of `Z` to the rows
whose indices are listed in `cs` (the brute-force recomputation the spec
asks to compare the min-distance vector against). -/
def minsq (Z : List (List ℚ)) (cs : List Nat) (i : Nat) : ℚ :=
  listMinQ (cs.map (fun c => sqDist (row Z i) (row Z c)))

/-- The per-call mutable state of the selection loop in
`get_coreset_idx_randomp`: `select_idx` (whose row is `last_item`),
`min_distances` (stored squared, see the file comment), and the growing
`coreset_idx` list. -/
structure SelState where
  select_idx : Nat
  min_distances : List ℚ
  coreset_idx : List Nat
deriving DecidableEq, Repr

/-- State right before the loop:
`select_idx = 0`, `coreset_idx = [torch.tensor(0)]`,
`min_distances = torch.linalg.norm(z_lib - z_lib[0:1], dim=1)`. -/
def initState (Z : List (List ℚ)) : SelState :=
  ⟨0, distancesTo Z 0, [0]⟩

/-- The "iterative step" line
`min_distances = torch.minimum(distances, min_distances)` of one loop
iteration, applied to a state. -/
def updatedMin (Z : List (List ℚ)) (s : SelState) : List ℚ :=
  List.zipWith min (distancesTo Z s.select_idx) s.min_distances

/-- One iteration of the `for _ in tqdm(range(n-1))` loop: recompute
distances to `last_item`, take the elementwise minimum, `argmax`-select,
zero the selected entry, append the index. -/
def selStep (Z : List (List ℚ)) (s : SelState) : SelState :=
  let m := updatedMin Z s
  let idx := argmaxList m
  ⟨idx, m.set idx 0, s.coreset_idx ++ [idx]⟩

/-- State after `k` iterations of the selection loop. -/
def selIter (Z : List (List ℚ)) : Nat → SelState
  | 0 => initState Z
  | k + 1 => selStep Z (selIter Z k)

/-- The selection part of `get_coreset_idx_randomp`: everything after
the random projection, run on the working matrix `Z` for target size
`n` (the loop runs `n - 1` times; `Nat` subtraction matches Python's
empty `range(n-1)` for `n = 0`). -/
def get_coreset_idx (Z : List (List ℚ)) (n : Nat) : List Nat :=
  (selIter Z (n - 1)).coreset_idx

/-- `PIL.ImageFilter.GaussianBlur(radius=...)`: the filter object is
characterized by the radius it was constructed with. -/
structure PILGaussianBlur where
  radius : ℤ
deriving DecidableEq

/-- The `GaussianBlur` class of `src/indad/utils.py`: stores the
constructor's `radius` argument and the blur kernel
`ImageFilter.GaussianBlur(radius=4)` built with a hard-coded radius. -/
structure GaussianBlur where
  radius : ℤ
  blur_kernel : PILGaussianBlur
deriving DecidableEq

/-- `GaussianBlur.__init__(self, radius=4)`:
`self.radius = radius; self.blur_kernel = ImageFilter.GaussianBlur(radius=4)`. -/
def GaussianBlur.init (radius : ℤ := 4) : GaussianBlur :=
  ⟨radius, ⟨4⟩⟩

/-- The external image operations used by `GaussianBlur.__call__`
(tensor max, indexing `img[0]`, scalar division/multiplication,
`ToPILImage`, `ToTensor`, and PIL's `filter`, which dispatches on the
filter object).  They are abstract parameters: their internals are
library code outside the repository. -/
structure ImageOps (Img PImg : Type) where
  maxVal : Img → ℚ
  first : Img → Img
  divScalar : Img → ℚ → Img
  mulScalar : Img → ℚ → Img
  toPILImage : Img → PImg
  toTensor : PImg → Img
  filterWith : PImg → PILGaussianBlur → PImg

/-- `GaussianBlur.__call__(self, img)`:
`map_max = img.max()`;
`final_map = self.load(self.unload(img[0]/map_max).filter(self.blur_kernel)) * map_max`. -/
def GaussianBlur.call {Img PImg : Type} (self : GaussianBlur)
    (ops : ImageOps Img PImg) (img : Img) : Img :=
  let map_max := ops.maxVal img
  ops.mulScalar
    (ops.toTensor
      (ops.filterWith (ops.toPILImage (ops.divScalar (ops.first img) map_max))
        self.blur_kernel))
    map_max

/-! ## Basic facts about the distance primitives -/

lemma sqDist_nonneg (xs ys : List ℚ) : 0 ≤ sqDist xs ys := by
  induction xs generalizing ys with
  | nil => simp [sqDist]
  | cons a as ih =>
      cases ys with
      | nil => simp [sqDist]
      | cons b bs =>
          have hrest := ih bs
          simp only [sqDist, List.zipWith_cons_cons, List.sum_cons] at hrest ⊢
          have hsq : (0:ℚ) ≤ (a - b) ^ 2 := by positivity
          linarith

lemma sqDist_self (xs : List ℚ) : sqDist xs xs = 0 := by
  induction xs with
  | nil => rfl
  | cons a as ih =>
      simp only [sqDist, List.zipWith_cons_cons, List.sum_cons] at ih ⊢
      simp [ih]

lemma sqDist_eq_zero_iff (xs ys : List ℚ) (h : xs.length = ys.length) :
    sqDist xs ys = 0 ↔ xs = ys := by
  induction xs generalizing ys with
  | nil => cases ys <;> simp_all [sqDist]
  | cons a as ih =>
      cases ys with
      | nil => simp at h
      | cons b bs =>
          simp only [sqDist, List.zipWith_cons_cons, List.sum_cons] at *
          constructor
          · intro h0
            have hsq : (0:ℚ) ≤ (a - b) ^ 2 := by positivity
            have hrest := sqDist_nonneg as bs
            simp only [sqDist] at hrest
            have h1 : (a - b) ^ 2 = 0 := by linarith
            have h2 : (List.zipWith (fun a b => (a - b) ^ 2) as bs).sum = 0 := by
              linarith
            have hab : a = b := by
              have := sq_eq_zero_iff.mp h1
              linarith
            have := (ih bs (by simpa using h)).mp h2
            simp [hab, this]
          · rintro ⟨rfl, rfl⟩
            have := sqDist_self (a :: as)
            simp only [sqDist, List.zipWith_cons_cons, List.sum_cons] at this
            linarith [sqDist_nonneg as as, sq_nonneg (a - a)]

/-! ## `torch.argmax` (first occurrence of the maximum) -/

lemma getD_le_listMax (l : List ℚ) (i : Nat) (hi : i < l.length) :
    l.getD i 0 ≤ listMax l := by
  induction l generalizing i with
  | nil => simp at hi
  | cons x xs ih =>
      cases xs with
      | nil =>
          cases i with
          | zero => simp [listMax]
          | succ j => simp at hi
      | cons y ys =>
          cases i with
          | zero => simp [listMax]
          | succ j =>
              have := ih j (by simpa using hi)
              calc (x :: y :: ys).getD (j + 1) 0 = (y :: ys).getD j 0 := by
                    simp [List.getD_cons_succ]
                _ ≤ listMax (y :: ys) := this
                _ ≤ listMax (x :: y :: ys) := by
                    rw [show listMax (x :: y :: ys) = max x (listMax (y :: ys)) from rfl]
                    exact le_max_right _ _

lemma argmaxList_lt_length (l : List ℚ) (h : l ≠ []) :
    argmaxList l < l.length := by
  induction l with
  | nil => simp at h
  | cons x xs ih =>
      cases xs with
      | nil => simp [argmaxList]
      | cons y ys =>
          rw [show argmaxList (x :: y :: ys)
              = if x < listMax (y :: ys) then argmaxList (y :: ys) + 1 else 0 from rfl]
          split
          · have := ih (by simp)
            simpa [Nat.succ_lt_succ_iff] using this
          · simp

lemma getD_argmaxList (l : List ℚ) (h : l ≠ []) :
    l.getD (argmaxList l) 0 = listMax l := by
  induction l with
  | nil => simp at h
  | cons x xs ih =>
      cases xs with
      | nil => simp [argmaxList, listMax]
      | cons y ys =>
          rw [show argmaxList (x :: y :: ys)
              = if x < listMax (y :: ys) then argmaxList (y :: ys) + 1 else 0 from rfl,
            show listMax (x :: y :: ys) = max x (listMax (y :: ys)) from rfl]
          split
          · rename_i hlt
            rw [List.getD_cons_succ, ih (by simp), max_eq_right hlt.le]
          · rename_i hge
            rw [List.getD_cons_zero, max_eq_left (le_of_not_lt hge)]

lemma getD_lt_listMax_of_lt_argmax (l : List ℚ) (j : Nat) (hj : j < argmaxList l) :
    l.getD j 0 < listMax l := by
  induction l generalizing j with
  | nil => simp [argmaxList] at hj
  | cons x xs ih =>
      cases xs with
      | nil => simp [argmaxList] at hj
      | cons y ys =>
          rw [show argmaxList (x :: y :: ys)
              = if x < listMax (y :: ys) then argmaxList (y :: ys) + 1 else 0 from rfl] at hj
          rw [show listMax (x :: y :: ys) = max x (listMax (y :: ys)) from rfl]
          split at hj
          · rename_i hlt
            cases j with
            | zero => simpa [max_eq_right hlt.le] using hlt
            | succ j' =>
                have := ih j' (by omega)
                rw [List.getD_cons_succ, max_eq_right hlt.le]
                exact this
          · omega

/-! ## Minimum over a list -/

lemma listMinQ_le (l : List ℚ) (x : ℚ) (hx : x ∈ l) : listMinQ l ≤ x := by
  induction l with
  | nil => simp at hx
  | cons a as ih =>
      cases as with
      | nil => simp at hx; simp [listMinQ, hx]
      | cons b bs =>
          rw [show listMinQ (a :: b :: bs) = min a (listMinQ (b :: bs)) from rfl]
          rcases List.mem_cons.mp hx with rfl | hx
          · exact min_le_left _ _
          · exact le_trans (min_le_right _ _) (ih hx)

lemma listMinQ_mem (l : List ℚ) (h : l ≠ []) : listMinQ l ∈ l := by
  induction l with
  | nil => simp at h
  | cons a as ih =>
      cases as with
      | nil => simp [listMinQ]
      | cons b bs =>
          rw [show listMinQ (a :: b :: bs) = min a (listMinQ (b :: bs)) from rfl]
          rcases min_cases a (listMinQ (b :: bs)) with ⟨heq, -⟩ | ⟨heq, -⟩
          · simp [heq]
          · rw [heq]
            exact List.mem_cons_of_mem _ (ih (by simp))

lemma listMinQ_append_singleton (l : List ℚ) (x : ℚ) (h : l ≠ []) :
    listMinQ (l ++ [x]) = min (listMinQ l) x := by
  induction l with
  | nil => simp at h
  | cons a as ih =>
      cases as with
      | nil =>
          rw [show ([a] ++ [x] : List ℚ) = [a, x] from rfl,
            show listMinQ [a, x] = min a (listMinQ [x]) from rfl]
          rfl
      | cons b bs =>
          rw [show ((a :: b :: bs) ++ [x] : List ℚ) = a :: ((b :: bs) ++ [x]) from rfl]
          rw [show listMinQ (a :: (b :: bs ++ [x]))
              = min a (listMinQ (b :: bs ++ [x])) from by
                cases bs <;> rfl]
          rw [ih (by simp),
            show listMinQ (a :: b :: bs) = min a (listMinQ (b :: bs)) from rfl,
            min_assoc]

lemma minsq_append_singleton (Z : List (List ℚ)) (cs : List Nat) (c i : Nat)
    (h : cs ≠ []) :
    minsq Z (cs ++ [c]) i
      = min (minsq Z cs i) (sqDist (row Z i) (row Z c)) := by
  unfold minsq
  rw [List.map_append]
  exact listMinQ_append_singleton _ _ (by simpa using h)

lemma minsq_nonneg (Z : List (List ℚ)) (cs : List Nat) (i : Nat) :
    0 ≤ minsq Z cs i := by
  unfold minsq
  cases cs with
  | nil => simp [listMinQ]
  | cons c cs' =>
      have hne : ((c :: cs').map (fun c => sqDist (row Z i) (row Z c))) ≠ [] := by
        simp
      rcases List.mem_map.mp (listMinQ_mem _ hne) with ⟨c0, -, hc⟩
      rw [← hc]
      exact sqDist_nonneg _ _

/-! ## Shape of the selection state -/

lemma selIter_zero (Z : List (List ℚ)) : selIter Z 0 = initState Z := rfl

lemma selIter_succ (Z : List (List ℚ)) (k : Nat) :
    selIter Z (k + 1) = selStep Z (selIter Z k) := rfl

lemma select_idx_selStep (Z : List (List ℚ)) (s : SelState) :
    (selStep Z s).select_idx = argmaxList (updatedMin Z s) := rfl

lemma min_distances_selStep (Z : List (List ℚ)) (s : SelState) :
    (selStep Z s).min_distances
      = (updatedMin Z s).set (argmaxList (updatedMin Z s)) 0 := rfl

lemma coreset_selStep (Z : List (List ℚ)) (s : SelState) :
    (selStep Z s).coreset_idx
      = s.coreset_idx ++ [argmaxList (updatedMin Z s)] := rfl

lemma length_distancesTo (Z : List (List ℚ)) (idx : Nat) :
    (distancesTo Z idx).length = Z.length := by
  simp [distancesTo]

lemma getD_distancesTo (Z : List (List ℚ)) (idx i : Nat) (hi : i < Z.length) :
    (distancesTo Z idx).getD i 0 = sqDist (row Z i) (row Z idx) := by
  rw [List.getD_eq_getElem _ _ (by simpa [length_distancesTo] using hi)]
  simp only [distancesTo, List.getElem_map]
  congr 1
  simp only [row]
  rw [List.getD_eq_getElem _ _ hi]

lemma length_min_distances (Z : List (List ℚ)) (k : Nat) :
    (selIter Z k).min_distances.length = Z.length := by
  induction k with
  | zero => simp [selIter_zero, initState, length_distancesTo]
  | succ k ih =>
      rw [selIter_succ, min_distances_selStep, List.length_set]
      simp [updatedMin, length_distancesTo, ih]

lemma length_updatedMin (Z : List (List ℚ)) (s : SelState)
    (h : s.min_distances.length = Z.length) :
    (updatedMin Z s).length = Z.length := by
  simp [updatedMin, length_distancesTo, h]

lemma getD_updatedMin (Z : List (List ℚ)) (s : SelState)
    (h : s.min_distances.length = Z.length) (i : Nat) (hi : i < Z.length) :
    (updatedMin Z s).getD i 0
      = min (sqDist (row Z i) (row Z s.select_idx)) (s.min_distances.getD i 0) := by
  have hlen : (updatedMin Z s).length = Z.length := length_updatedMin Z s h
  rw [List.getD_eq_getElem _ _ (by rw [hlen]; exact hi)]
  simp only [updatedMin] at hlen ⊢
  rw [List.getElem_zipWith]
  congr 1
  · rw [← getD_distancesTo Z s.select_idx i hi,
      List.getD_eq_getElem _ _ (by rw [length_distancesTo]; exact hi)]
  · rw [List.getD_eq_getElem _ _ (by rw [h]; exact hi)]

lemma length_coreset (Z : List (List ℚ)) (k : Nat) :
    (selIter Z k).coreset_idx.length = k + 1 := by
  induction k with
  | zero => rfl
  | succ k ih =>
      rw [selIter_succ, coreset_selStep, List.length_append, ih]
      rfl

lemma coreset_take (Z : List (List ℚ)) (k K : Nat) (h : k ≤ K) :
    (selIter Z K).coreset_idx.take (k + 1) = (selIter Z k).coreset_idx := by
  induction K with
  | zero =>
      have hk : k = 0 := by omega
      subst hk
      exact List.take_of_length_le (by rw [length_coreset])
  | succ K ih =>
      rcases Nat.lt_or_ge k (K + 1) with hlt | hge
      · have hk : k ≤ K := by omega
        rw [selIter_succ, coreset_selStep,
          List.take_append_of_le_length (by rw [length_coreset]; omega)]
        exact ih hk
      · have hk : k = K + 1 := by omega
        subst hk
        exact List.take_of_length_le (by rw [length_coreset])

lemma getD_coreset_last (Z : List (List ℚ)) (k : Nat) :
    (selIter Z k).coreset_idx.getD k 0 = (selIter Z k).select_idx := by
  cases k with
  | zero => rfl
  | succ k =>
      rw [selIter_succ, coreset_selStep, select_idx_selStep]
      have hlen : (selIter Z k).coreset_idx.length = k + 1 := length_coreset Z k
      rw [List.getD_eq_getElem _ _ (by simp [hlen])]
      exact List.getElem_concat_length _ _ _ hlen.symm _

lemma updatedMin_ne_nil (Z : List (List ℚ)) (k : Nat) (hZ : Z ≠ []) :
    updatedMin Z (selIter Z k) ≠ [] := by
  have hm : (updatedMin Z (selIter Z k)).length = Z.length :=
    length_updatedMin Z _ (length_min_distances Z k)
  exact List.length_pos.mp (by rw [hm]; exact List.length_pos.mpr hZ)

lemma coreset_mem_lt (Z : List (List ℚ)) (hZ : Z ≠ []) (k : Nat) :
    ∀ c ∈ (selIter Z k).coreset_idx, c < Z.length := by
  induction k with
  | zero =>
      intro c hc
      rw [selIter_zero, initState] at hc
      have : c = 0 := by simpa using hc
      subst this
      exact List.length_pos.mpr hZ
  | succ k ih =>
      intro c hc
      rw [selIter_succ, coreset_selStep] at hc
      rcases List.mem_append.mp hc with hmem | hmem
      · exact ih c hmem
      · have hc' : c = argmaxList (updatedMin Z (selIter Z k)) := by
          simpa using hmem
        subst hc'
        have hm : (updatedMin Z (selIter Z k)).length = Z.length :=
          length_updatedMin Z _ (length_min_distances Z k)
        have := argmaxList_lt_length _ (updatedMin_ne_nil Z k hZ)
        omega

/-! ## The min-distance invariant -/

lemma getD_set_zero (m : List ℚ) (idx i : Nat) (hi : i < m.length) :
    (m.set idx 0).getD i 0 = if idx = i then 0 else m.getD i 0 := by
  rw [List.getD_eq_getElem _ _ (by simpa using hi), List.getElem_set]
  split
  · rfl
  · rw [List.getD_eq_getElem _ _ hi]

lemma minsq_take_merge (Z : List (List ℚ)) (C : List Nat) (k i : Nat)
    (hlen : C.length = k + 1) :
    min (sqDist (row Z i) (row Z (C.getD k 0))) (minsq Z (C.take (max k 1)) i)
      = minsq Z C i := by
  cases k with
  | zero =>
      rcases List.length_eq_one.mp hlen with ⟨c, rfl⟩
      simp [minsq, listMinQ]
  | succ k =>
      have hmax : max (k + 1) 1 = k + 1 := by omega
      have hne : C ≠ [] := by
        intro h
        rw [h] at hlen
        simp at hlen
      have hdlne : C.dropLast ≠ [] := by
        have hl : C.dropLast.length = k + 1 := by
          rw [List.length_dropLast, hlen]
          omega
        exact List.length_pos.mp (by omega)
      have hdl : C.take (k + 1) = C.dropLast := by
        rw [List.dropLast_eq_take, hlen]
        congr 1
      have hlast : C.getD (k + 1) 0 = C.getLast hne := by
        rw [List.getLast_eq_getElem, List.getD_eq_getElem _ _ (by omega)]
        congr 1
        omega
      have hC : C.dropLast ++ [C.getLast hne] = C :=
        List.dropLast_append_getLast hne
      rw [hmax, hlast, hdl]
      conv_rhs => rw [← hC]
      rw [minsq_append_singleton Z _ _ i hdlne]
      exact min_comm _ _

/-- The workhorse invariant, proved by induction along the loop.  At the
end of iteration `k` the coreset holds `k + 1` indices; every selected
row's entry is zero, and the entry of every unselected row `i` is the
minimum squared distance from row `i` to the first `max k 1` selected
rows (the distances to the row selected in iteration `k` itself are only
folded in at the start of iteration `k + 1`). -/
lemma selIter_inv (Z : List (List ℚ)) (hZ : Z ≠ []) (k : Nat) :
    (∀ i, i ∈ (selIter Z k).coreset_idx →
        (selIter Z k).min_distances.getD i 0 = 0) ∧
    (∀ i, i < Z.length → i ∉ (selIter Z k).coreset_idx →
        (selIter Z k).min_distances.getD i 0
          = minsq Z ((selIter Z k).coreset_idx.take (max k 1)) i) := by
  induction k with
  | zero =>
      constructor
      · intro i hi
        have hi0 : i = 0 := by simpa [selIter_zero, initState] using hi
        subst hi0
        show (distancesTo Z 0).getD 0 0 = 0
        rw [getD_distancesTo Z 0 0 (List.length_pos.mpr hZ), sqDist_self]
      · intro i hlt hni
        show (distancesTo Z 0).getD i 0 = minsq Z ([0].take (max 0 1)) i
        rw [getD_distancesTo Z 0 i hlt]
        simp [minsq, listMinQ]
  | succ k ih =>
      obtain ⟨ih0, ihm⟩ := ih
      have hlenmd : (selIter Z k).min_distances.length = Z.length :=
        length_min_distances Z k
      have hlenm : (updatedMin Z (selIter Z k)).length = Z.length :=
        length_updatedMin Z _ hlenmd
      have hidxlt : argmaxList (updatedMin Z (selIter Z k)) < Z.length := by
        rw [← hlenm]
        exact argmaxList_lt_length _ (updatedMin_ne_nil Z k hZ)
      have hum0 : ∀ i, i ∈ (selIter Z k).coreset_idx →
          (updatedMin Z (selIter Z k)).getD i 0 = 0 := by
        intro i hi
        have hilt : i < Z.length := coreset_mem_lt Z hZ k i hi
        rw [getD_updatedMin Z _ hlenmd i hilt, ih0 i hi]
        exact min_eq_right (sqDist_nonneg _ _)
      have humv : ∀ i, i < Z.length → i ∉ (selIter Z k).coreset_idx →
          (updatedMin Z (selIter Z k)).getD i 0
            = minsq Z (selIter Z k).coreset_idx i := by
        intro i hlt hni
        rw [getD_updatedMin Z _ hlenmd i hlt, ihm i hlt hni]
        have hmerge := minsq_take_merge Z (selIter Z k).coreset_idx k i
          (length_coreset Z k)
        rw [getD_coreset_last Z k] at hmerge
        exact hmerge
      constructor
      · intro i hi
        rw [selIter_succ, coreset_selStep] at hi
        rw [selIter_succ, min_distances_selStep]
        rcases List.mem_append.mp hi with hmem | hmem
        · have hilt : i < Z.length := coreset_mem_lt Z hZ k i hmem
          rw [getD_set_zero _ _ _ (by rw [hlenm]; exact hilt)]
          split
          · rfl
          · exact hum0 i hmem
        · have : i = argmaxList (updatedMin Z (selIter Z k)) := by
            simpa using hmem
          subst this
          rw [getD_set_zero _ _ _ (by rw [hlenm]; exact hidxlt)]
          simp
      · intro i hlt hni
        rw [selIter_succ, coreset_selStep] at hni
        rw [selIter_succ, min_distances_selStep, coreset_selStep]
        have hniC : i ∉ (selIter Z k).coreset_idx := fun h =>
          hni (List.mem_append.mpr (Or.inl h))
        have hneidx : i ≠ argmaxList (updatedMin Z (selIter Z k)) := fun h =>
          hni (List.mem_append.mpr (Or.inr (by simp [h])))
        rw [getD_set_zero _ _ _ (by rw [hlenm]; exact hlt)]
        rw [if_neg (fun h => hneidx h.symm)]
        rw [humv i hlt hniC]
        have hmax : max (k + 1) 1 = k + 1 := by omega
        rw [hmax, List.take_left' (length_coreset Z k)]

/-- At the moment of selection inside iteration `k + 1` (right after the
elementwise-minimum update, before the `argmax`), the updated vector
holds 0 at every already-selected row and the exact minimum squared
distance to *all* rows selected so far at every other row. -/
lemma updatedMin_entries (Z : List (List ℚ)) (hZ : Z ≠ []) (k : Nat) :
    (∀ i, i ∈ (selIter Z k).coreset_idx →
        (updatedMin Z (selIter Z k)).getD i 0 = 0) ∧
    (∀ i, i < Z.length → i ∉ (selIter Z k).coreset_idx →
        (updatedMin Z (selIter Z k)).getD i 0
          = minsq Z (selIter Z k).coreset_idx i) := by
  obtain ⟨ih0, ihm⟩ := selIter_inv Z hZ k
  have hlenmd : (selIter Z k).min_distances.length = Z.length :=
    length_min_distances Z k
  constructor
  · intro i hi
    have hilt : i < Z.length := coreset_mem_lt Z hZ k i hi
    rw [getD_updatedMin Z _ hlenmd i hilt, ih0 i hi]
    exact min_eq_right (sqDist_nonneg _ _)
  · intro i hlt hni
    rw [getD_updatedMin Z _ hlenmd i hlt, ihm i hlt hni]
    have hmerge := minsq_take_merge Z (selIter Z k).coreset_idx k i
      (length_coreset Z k)
    rw [getD_coreset_last Z k] at hmerge
    exact hmerge

/-! ## Nonnegativity of the min-distance vector -/

lemma min_distances_nonneg (Z : List (List ℚ)) (k i : Nat) :
    0 ≤ (selIter Z k).min_distances.getD i 0 := by
  induction k with
  | zero =>
      by_cases hi : i < Z.length
      · show 0 ≤ (distancesTo Z 0).getD i 0
        rw [getD_distancesTo Z 0 i hi]
        exact sqDist_nonneg _ _
      · show 0 ≤ (distancesTo Z 0).getD i 0
        rw [List.getD_eq_default _ _ (by rw [length_distancesTo]; omega)]
  | succ k ih =>
      rw [selIter_succ, min_distances_selStep]
      have hlenm : (updatedMin Z (selIter Z k)).length = Z.length :=
        length_updatedMin Z _ (length_min_distances Z k)
      by_cases hi : i < Z.length
      · rw [getD_set_zero _ _ _ (by rw [hlenm]; exact hi)]
        split
        · exact le_refl 0
        · rw [getD_updatedMin Z _ (length_min_distances Z k) i hi]
          exact le_min (sqDist_nonneg _ _) ih
      · rw [List.getD_eq_default _ _ (by rw [List.length_set, hlenm]; omega)]

lemma updatedMin_nonneg (Z : List (List ℚ)) (k i : Nat) :
    0 ≤ (updatedMin Z (selIter Z k)).getD i 0 := by
  have hlenm : (updatedMin Z (selIter Z k)).length = Z.length :=
    length_updatedMin Z _ (length_min_distances Z k)
  by_cases hi : i < Z.length
  · rw [getD_updatedMin Z _ (length_min_distances Z k) i hi]
    exact le_min (sqDist_nonneg _ _) (min_distances_nonneg Z k i)
  · rw [List.getD_eq_default _ _ (by rw [hlenm]; omega)]

/-! ## Distinctness of the selected indices -/

lemma row_length (Z : List (List ℚ)) (d i : Nat) (hd : ∀ r ∈ Z, r.length = d)
    (hi : i < Z.length) : (row Z i).length = d := by
  apply hd
  rw [row, List.getD_eq_getElem _ _ hi]
  exact List.getElem_mem hi

lemma row_injective (Z : List (List ℚ)) (hnd : Z.Nodup) (i j : Nat)
    (hi : i < Z.length) (hj : j < Z.length) (hij : i ≠ j) :
    row Z i ≠ row Z j := by
  intro h
  rw [row, row, List.getD_eq_getElem _ _ hi, List.getD_eq_getElem _ _ hj] at h
  exact hij ((List.Nodup.getElem_inj_iff hnd).mp h)

lemma minsq_pos (Z : List (List ℚ)) (d : Nat) (hd : ∀ r ∈ Z, r.length = d)
    (hnd : Z.Nodup) (cs : List Nat) (hcs : cs ≠ [])
    (hmem : ∀ c ∈ cs, c < Z.length) (i : Nat) (hi : i < Z.length)
    (hni : i ∉ cs) :
    0 < minsq Z cs i := by
  unfold minsq
  have hne : cs.map (fun c => sqDist (row Z i) (row Z c)) ≠ [] := by
    simpa using hcs
  rcases List.mem_map.mp (listMinQ_mem _ hne) with ⟨c, hcmem, hc⟩
  rw [← hc]
  rcases lt_or_eq_of_le (sqDist_nonneg (row Z i) (row Z c)) with hlt | heq
  · exact hlt
  · exfalso
    have hlen : (row Z i).length = (row Z c).length := by
      rw [row_length Z d i hd hi, row_length Z d c hd (hmem c hcmem)]
    have hrows := (sqDist_eq_zero_iff _ _ hlen).mp heq.symm
    exact row_injective Z hnd i c hi (hmem c hcmem)
      (fun h => hni (h ▸ hcmem)) hrows

lemma exists_unselected (Z : List (List ℚ)) (k : Nat)
    (hnodup : (selIter Z k).coreset_idx.Nodup) (hlt : k + 1 < Z.length) :
    ∃ i, i < Z.length ∧ i ∉ (selIter Z k).coreset_idx := by
  by_contra h
  push_neg at h
  have hsub : List.range Z.length ⊆ (selIter Z k).coreset_idx := by
    intro x hx
    exact h x (List.mem_range.mp hx)
  have hle :=
    (List.subperm_of_subset (List.nodup_range _) hsub).length_le
  rw [List.length_range, length_coreset] at hle
  omega

lemma coreset_nodup (Z : List (List ℚ)) (d : Nat) (hZ : Z ≠ [])
    (hd : ∀ r ∈ Z, r.length = d) (hnd : Z.Nodup) (k : Nat)
    (hk : k + 1 ≤ Z.length) :
    (selIter Z k).coreset_idx.Nodup := by
  induction k with
  | zero => simp [selIter_zero, initState]
  | succ k ih =>
      have hk' : k + 1 ≤ Z.length := by omega
      have hnodup := ih hk'
      obtain ⟨i0, hi0lt, hi0n⟩ := exists_unselected Z k hnodup (by omega)
      have hum := updatedMin_entries Z hZ k
      have hpos : 0 < (updatedMin Z (selIter Z k)).getD i0 0 := by
        rw [hum.2 i0 hi0lt hi0n]
        exact minsq_pos Z d hd hnd _
          (by rw [← List.length_pos, length_coreset]; omega)
          (coreset_mem_lt Z hZ k) i0 hi0lt hi0n
      have hmne : updatedMin Z (selIter Z k) ≠ [] := updatedMin_ne_nil Z k hZ
      have hargval : (updatedMin Z (selIter Z k)).getD
          (argmaxList (updatedMin Z (selIter Z k))) 0
            = listMax (updatedMin Z (selIter Z k)) :=
        getD_argmaxList _ hmne
      have hge : (updatedMin Z (selIter Z k)).getD i0 0
          ≤ listMax (updatedMin Z (selIter Z k)) :=
        getD_le_listMax _ i0
          (by rw [length_updatedMin Z _ (length_min_distances Z k)]; exact hi0lt)
      have hidxn : argmaxList (updatedMin Z (selIter Z k))
          ∉ (selIter Z k).coreset_idx := by
        intro hmem
        have h0 := hum.1 _ hmem
        rw [hargval] at h0
        rw [h0] at hge
        linarith
      rw [selIter_succ, coreset_selStep]
      refine List.Nodup.append hnodup (List.nodup_singleton _) ?_
      intro x hx hmem
      have : x = argmaxList (updatedMin Z (selIter Z k)) := by simpa using hmem
      subst this
      exact hidxn hx

/-! ## From squared distances to Euclidean distances -/

lemma minsq_isLeast (Z : List (List ℚ)) (cs : List Nat) (i : Nat)
    (hcs : cs ≠ []) :
    IsLeast {dd : ℝ | ∃ c ∈ cs, dd = Real.sqrt (sqDist (row Z i) (row Z c))}
      (Real.sqrt (minsq Z cs i)) := by
  constructor
  · have hne : cs.map (fun c => sqDist (row Z i) (row Z c)) ≠ [] := by
      simpa using hcs
    rcases List.mem_map.mp (listMinQ_mem _ hne) with ⟨c, hcmem, hc⟩
    refine ⟨c, hcmem, ?_⟩
    rw [minsq, ← hc]
  · rintro dd ⟨c, hcmem, rfl⟩
    apply Real.sqrt_le_sqrt
    have hle : minsq Z cs i ≤ sqDist (row Z i) (row Z c) :=
      listMinQ_le _ _ (List.mem_map_of_mem _ hcmem)
    exact_mod_cast hle

/-! ## Concrete traces

Evaluation of the loop on the small working matrices used by the spec's
scenarios (1-D points; the stored vectors are squared norms). -/

lemma trace9_state0 :
    selIter [[0], [1], [2], [5], [9]] 0 = ⟨0, [0, 1, 4, 25, 81], [0]⟩ := by
  rw [selIter_zero]
  simp only [initState, distancesTo, row, List.map_cons, List.map_nil,
    List.getD_cons_zero]
  norm_num [sqDist, SelState.mk.injEq]

lemma trace9_state1 :
    selIter [[0], [1], [2], [5], [9]] 1 = ⟨4, [0, 1, 4, 25, 0], [0, 4]⟩ := by
  rw [show (1 : Nat) = 0 + 1 from rfl, selIter_succ, trace9_state0]
  simp only [selStep, updatedMin, distancesTo, row, List.map_cons, List.map_nil,
    List.getD_cons_zero, List.getD_cons_succ, List.zipWith_cons_cons,
    List.zipWith_nil_right, List.zipWith_nil_left]
  norm_num [sqDist, argmaxList, listMax, max_def, min_def, SelState.mk.injEq,
    List.set]

lemma trace9_updated2 :
    updatedMin [[0], [1], [2], [5], [9]] (selIter [[0], [1], [2], [5], [9]] 1)
      = [0, 1, 4, 16, 0] := by
  rw [trace9_state1]
  simp only [updatedMin, distancesTo, row, List.map_cons, List.map_nil,
    List.getD_cons_zero, List.getD_cons_succ, List.zipWith_cons_cons,
    List.zipWith_nil_right, List.zipWith_nil_left]
  norm_num [sqDist, max_def, min_def]

lemma trace9_state2 :
    selIter [[0], [1], [2], [5], [9]] 2 = ⟨3, [0, 1, 4, 0, 0], [0, 4, 3]⟩ := by
  rw [show (2 : Nat) = 1 + 1 from rfl, selIter_succ]
  rw [show selStep [[0], [1], [2], [5], [9]] (selIter [[0], [1], [2], [5], [9]] 1)
      = ⟨argmaxList (updatedMin [[0], [1], [2], [5], [9]] (selIter [[0], [1], [2], [5], [9]] 1)),
        (updatedMin [[0], [1], [2], [5], [9]] (selIter [[0], [1], [2], [5], [9]] 1)).set
          (argmaxList (updatedMin [[0], [1], [2], [5], [9]] (selIter [[0], [1], [2], [5], [9]] 1))) 0,
        (selIter [[0], [1], [2], [5], [9]] 1).coreset_idx
          ++ [argmaxList (updatedMin [[0], [1], [2], [5], [9]] (selIter [[0], [1], [2], [5], [9]] 1))]⟩
      from rfl]
  rw [trace9_updated2, trace9_state1]
  norm_num [argmaxList, listMax, max_def, SelState.mk.injEq, List.set]

lemma trace9_coreset3 :
    get_coreset_idx [[0], [1], [2], [5], [9]] 3 = [0, 4, 3] := by
  show (selIter [[0], [1], [2], [5], [9]] 2).coreset_idx = [0, 4, 3]
  rw [trace9_state2]

lemma trace9_coreset2 :
    get_coreset_idx [[0], [1], [2], [5], [9]] 2 = [0, 4] := by
  show (selIter [[0], [1], [2], [5], [9]] 1).coreset_idx = [0, 4]
  rw [trace9_state1]

lemma trace_tie_coreset :
    get_coreset_idx [[0], [5], [5]] 2 = [0, 1] := by
  show (selIter [[0], [5], [5]] 1).coreset_idx = [0, 1]
  rw [show (1 : Nat) = 0 + 1 from rfl, selIter_succ, selIter_zero]
  simp only [selStep, initState, updatedMin, distancesTo, row, List.map_cons,
    List.map_nil, List.getD_cons_zero, List.getD_cons_succ,
    List.zipWith_cons_cons, List.zipWith_nil_right, List.zipWith_nil_left]
  norm_num [sqDist, argmaxList, listMax, max_def, min_def]

lemma trace_dup_coreset :
    get_coreset_idx [[0], [0]] 2 = [0, 0] := by
  show (selIter [[0], [0]] 1).coreset_idx = [0, 0]
  rw [show (1 : Nat) = 0 + 1 from rfl, selIter_succ, selIter_zero]
  simp only [selStep, initState, updatedMin, distancesTo, row, List.map_cons,
    List.map_nil, List.getD_cons_zero, List.getD_cons_succ,
    List.zipWith_cons_cons, List.zipWith_nil_right, List.zipWith_nil_left]
  norm_num [sqDist, argmaxList, listMax, max_def, min_def]

lemma trace_pair_state1 :
    selIter [[0], [1]] 1 = ⟨1, [0, 0], [0, 1]⟩ := by
  rw [show (1 : Nat) = 0 + 1 from rfl, selIter_succ, selIter_zero]
  simp only [selStep, initState, updatedMin, distancesTo, row, List.map_cons,
    List.map_nil, List.getD_cons_zero, List.getD_cons_succ,
    List.zipWith_cons_cons, List.zipWith_nil_right, List.zipWith_nil_left]
  norm_num [sqDist, argmaxList, listMax, max_def, min_def, SelState.mk.injEq,
    List.set]

lemma trace_pair_coreset3 :
    get_coreset_idx [[0], [1]] 3 = [0, 1, 0] := by
  show (selIter [[0], [1]] 2).coreset_idx = [0, 1, 0]
  rw [show (2 : Nat) = 1 + 1 from rfl, selIter_succ, trace_pair_state1]
  simp only [selStep, updatedMin, distancesTo, row, List.map_cons,
    List.map_nil, List.getD_cons_zero, List.getD_cons_succ,
    List.zipWith_cons_cons, List.zipWith_nil_right, List.zipWith_nil_left]
  norm_num [sqDist, argmaxList, listMax, max_def, min_def]

lemma trace_empty_coreset :
    get_coreset_idx ([] : List (List ℚ)) 1 = [0] := rfl

lemma sqrt_ratCast_eq (a : ℚ) (b : ℝ) (hb : 0 ≤ b) (h : ((a : ℝ)) = b ^ 2) :
    Real.sqrt (a : ℝ) = b := by
  rw [h]
  exact Real.sqrt_sq hb

/-! ## The claims -/

/-- C1 counterexample: the claimed invariant — at the end of loop
iteration `k` each entry equals the minimum Euclidean distance to the
rows selected into the coreset so far, or zero for selected rows — is
false of the code, because the distances to the center selected in
iteration `k` are folded into the vector only at the start of iteration
`k + 1`.  On the spec's own working matrix `{0,1,2,5,9}`, at the end of
the iteration that selects index 4 (coreset `[0, 4]`), the unselected
row 3 has entry 25 (Euclidean value 5, its distance to row 0 alone),
while the true least Euclidean distance from row 3 to the selected rows
`{0, 4}` is 4 (attained at row 4), and 5 ≠ 4 (nor 0). -/
theorem C1_counterexample :
    3 ∉ (selIter [[0], [1], [2], [5], [9]] 1).coreset_idx ∧
    (selIter [[0], [1], [2], [5], [9]] 1).min_distances.getD 3 0 = 25 ∧
    minsq [[0], [1], [2], [5], [9]]
      (selIter [[0], [1], [2], [5], [9]] 1).coreset_idx 3 = 16 ∧
    Real.sqrt
        (((selIter [[0], [1], [2], [5], [9]] 1).min_distances.getD 3 0 : ℚ) : ℝ)
      = 5 ∧
    IsLeast {dd : ℝ | ∃ c ∈ (selIter [[0], [1], [2], [5], [9]] 1).coreset_idx,
        dd = Real.sqrt (sqDist (row [[0], [1], [2], [5], [9]] 3)
          (row [[0], [1], [2], [5], [9]] c))} 4 ∧
    Real.sqrt
        (((selIter [[0], [1], [2], [5], [9]] 1).min_distances.getD 3 0 : ℚ) : ℝ)
      ≠ 4 := by
  have hentry : (selIter [[0], [1], [2], [5], [9]] 1).min_distances.getD 3 0
      = 25 := by
    rw [trace9_state1]
    rfl
  have hminsq : minsq [[0], [1], [2], [5], [9]]
      (selIter [[0], [1], [2], [5], [9]] 1).coreset_idx 3 = 16 := by
    rw [trace9_state1]
    simp only [minsq, row, List.map_cons, List.map_nil, List.getD_cons_zero,
      List.getD_cons_succ]
    norm_num [sqDist, listMinQ, min_def]
  have hsq5 : Real.sqrt
      (((selIter [[0], [1], [2], [5], [9]] 1).min_distances.getD 3 0 : ℚ) : ℝ)
        = 5 := by
    rw [hentry]
    exact sqrt_ratCast_eq 25 5 (by norm_num) (by norm_num)
  have hL : IsLeast
      {dd : ℝ | ∃ c ∈ (selIter [[0], [1], [2], [5], [9]] 1).coreset_idx,
        dd = Real.sqrt (sqDist (row [[0], [1], [2], [5], [9]] 3)
          (row [[0], [1], [2], [5], [9]] c))} 4 := by
    have h0 := minsq_isLeast [[0], [1], [2], [5], [9]]
      (selIter [[0], [1], [2], [5], [9]] 1).coreset_idx 3
      (by rw [trace9_state1]; decide)
    rw [hminsq] at h0
    rwa [sqrt_ratCast_eq 16 4 (by norm_num) (by norm_num)] at h0
  refine ⟨by rw [trace9_state1]; decide, hentry, hminsq, hsq5, hL, ?_⟩
  rw [hsq5]
  norm_num

/-- C1 (amended): at the end of loop iteration `k` (1-indexed) the
coreset sequence holds `k + 1` indices; the min-distance vector entry
of every selected row is zero, and the entry of every other row `i`
equals the minimum Euclidean distance from row `i` to the *first `k`*
selected rows only — the distances to the row selected in iteration `k`
itself are folded in at the start of iteration `k + 1` (the lag the
counterexample exhibits; the arg-max inside iteration `k + 1` therefore
still sees the correct minimum over all centers selected before it).
Stored squared: the entry equals the minimum squared distance, and its
real square root is the least element of the set of Euclidean distances
from row `i` to those first `k` rows. -/
theorem C1_min_distance_invariant (Z : List (List ℚ)) (k i : Nat)
    (hZ : Z ≠ []) (hk : 1 ≤ k) (hi : i < Z.length) :
    (i ∈ (selIter Z k).coreset_idx →
      (selIter Z k).min_distances.getD i 0 = 0) ∧
    (i ∉ (selIter Z k).coreset_idx →
      (selIter Z k).min_distances.getD i 0
          = minsq Z ((selIter Z k).coreset_idx.take k) i ∧
      IsLeast {dd : ℝ | ∃ c ∈ (selIter Z k).coreset_idx.take k,
          dd = Real.sqrt (sqDist (row Z i) (row Z c))}
        (Real.sqrt ((selIter Z k).min_distances.getD i 0))) := by
  obtain ⟨h0, hm⟩ := selIter_inv Z hZ k
  have hmax : max k 1 = k := by omega
  constructor
  · exact h0 i
  · intro hni
    have hv := hm i hi hni
    rw [hmax] at hv
    refine ⟨hv, ?_⟩
    rw [hv]
    apply minsq_isLeast
    have hlen : ((selIter Z k).coreset_idx.take k).length = k := by
      rw [List.length_take, length_coreset]
      omega
    exact List.length_pos.mp (by rw [hlen]; omega)

/-- Witness for C1 at the spec's 1-D working matrix `{0,1,2,5,9}`, at
the end of loop iteration 1, for the unselected row 2. -/
theorem C1_min_distance_invariant_witness :
    (([[0], [1], [2], [5], [9]] : List (List ℚ)) ≠ [] ∧ 1 ≤ 1 ∧
      2 < ([[0], [1], [2], [5], [9]] : List (List ℚ)).length) ∧
    ((2 ∈ (selIter [[0], [1], [2], [5], [9]] 1).coreset_idx →
      (selIter [[0], [1], [2], [5], [9]] 1).min_distances.getD 2 0 = 0) ∧
    (2 ∉ (selIter [[0], [1], [2], [5], [9]] 1).coreset_idx →
      (selIter [[0], [1], [2], [5], [9]] 1).min_distances.getD 2 0
          = minsq [[0], [1], [2], [5], [9]]
              ((selIter [[0], [1], [2], [5], [9]] 1).coreset_idx.take 1) 2 ∧
      IsLeast {dd : ℝ |
          ∃ c ∈ (selIter [[0], [1], [2], [5], [9]] 1).coreset_idx.take 1,
          dd = Real.sqrt (sqDist (row [[0], [1], [2], [5], [9]] 2)
            (row [[0], [1], [2], [5], [9]] c))}
        (Real.sqrt
          ((selIter [[0], [1], [2], [5], [9]] 1).min_distances.getD 2 0)))) :=
  ⟨⟨by decide, by decide, by decide⟩,
    C1_min_distance_invariant [[0], [1], [2], [5], [9]] 1 2
      (by decide) (by decide) (by decide)⟩

/-- C2 counterexample: on a working matrix with two identical rows and
`n = 2` (valid: `1 ≤ n ≤ n_total`), the returned index sequence is
`[0, 0]` — the seed row is selected twice, so the entries are not
pairwise distinct.  (When every unselected row is at distance zero from
the selected set, the whole min-distance vector is zero and
`torch.argmax` falls back to index 0, which is already selected.) -/
theorem C2_counterexample :
    get_coreset_idx [[0], [0]] 2 = [0, 0] ∧
    ¬ (get_coreset_idx [[0], [0]] 2).Nodup := by
  refine ⟨trace_dup_coreset, ?_⟩
  rw [trace_dup_coreset]
  decide

/-- C2 (amended): for `1 ≤ n ≤ n_total` the output has exactly `n`
entries, every entry lies in `[0, n_total)`, and — additionally
assuming the rows of the working matrix are pairwise distinct — the
entries are pairwise distinct.  (The distinctness part of the original
claim fails when the working matrix has duplicate rows, see the
counterexample; `d` is the common row dimension.) -/
theorem C2_output_shape (Z : List (List ℚ)) (d n : Nat)
    (hn1 : 1 ≤ n) (hn2 : n ≤ Z.length) (hd : ∀ r ∈ Z, r.length = d) :
    (get_coreset_idx Z n).length = n ∧
    (∀ i ∈ get_coreset_idx Z n, i < Z.length) ∧
    (Z.Nodup → (get_coreset_idx Z n).Nodup) := by
  have hZ : Z ≠ [] := List.length_pos.mp (by omega)
  refine ⟨?_, ?_, ?_⟩
  · rw [get_coreset_idx, length_coreset]
    omega
  · intro i hi
    exact coreset_mem_lt Z hZ (n - 1) i hi
  · intro hnd
    exact coreset_nodup Z d hZ hd hnd (n - 1) (by omega)

/-- Witness for C2 on the 5-row 1-D working matrix with `n = 2`. -/
theorem C2_output_shape_witness :
    (1 ≤ 2 ∧ 2 ≤ ([[0], [1], [2], [5], [9]] : List (List ℚ)).length ∧
      (∀ r ∈ ([[0], [1], [2], [5], [9]] : List (List ℚ)), r.length = 1)) ∧
    ((get_coreset_idx [[0], [1], [2], [5], [9]] 2).length = 2 ∧
     (∀ i ∈ get_coreset_idx [[0], [1], [2], [5], [9]] 2,
        i < ([[0], [1], [2], [5], [9]] : List (List ℚ)).length) ∧
     (([[0], [1], [2], [5], [9]] : List (List ℚ)).Nodup →
        (get_coreset_idx [[0], [1], [2], [5], [9]] 2).Nodup)) :=
  ⟨⟨by decide, by decide, by decide⟩,
    C2_output_shape [[0], [1], [2], [5], [9]] 1 2
      (by decide) (by decide) (by decide)⟩

/-- C3: at every selection step (the `argmax` inside loop iteration
`k + 1`, taken over the freshly updated min-distance vector), the
selected index attains the maximal value, and among all indices
attaining it the lowest one is selected; in particular on the 1-D
working matrix `{0, 5, 5}` with `n = 2` the output is `[0, 1]`. -/
theorem C3_tie_break_lowest_index (Z : List (List ℚ)) (k : Nat)
    (hZ : Z ≠ []) :
    (∀ j, j < Z.length →
        (updatedMin Z (selIter Z k)).getD j 0
          ≤ (updatedMin Z (selIter Z k)).getD
              ((selIter Z (k + 1)).select_idx) 0) ∧
    (∀ j, j < Z.length →
        (updatedMin Z (selIter Z k)).getD ((selIter Z (k + 1)).select_idx) 0
          ≤ (updatedMin Z (selIter Z k)).getD j 0 →
        (selIter Z (k + 1)).select_idx ≤ j) ∧
    get_coreset_idx [[0], [5], [5]] 2 = [0, 1] := by
  have hlenm : (updatedMin Z (selIter Z k)).length = Z.length :=
    length_updatedMin Z _ (length_min_distances Z k)
  have hmne : updatedMin Z (selIter Z k) ≠ [] := updatedMin_ne_nil Z k hZ
  have hsel : (selIter Z (k + 1)).select_idx
      = argmaxList (updatedMin Z (selIter Z k)) := by
    rw [selIter_succ, select_idx_selStep]
  refine ⟨?_, ?_, trace_tie_coreset⟩
  · intro j hj
    rw [hsel, getD_argmaxList _ hmne]
    exact getD_le_listMax _ j (by rw [hlenm]; exact hj)
  · intro j hj hle
    rw [hsel] at hle ⊢
    by_contra hlt
    push_neg at hlt
    have hstrict := getD_lt_listMax_of_lt_argmax _ j hlt
    rw [getD_argmaxList _ hmne] at hle
    linarith

/-- Witness for C3 on the tie matrix `{0, 5, 5}` at the first selection
step. -/
theorem C3_tie_break_lowest_index_witness :
    (([[0], [5], [5]] : List (List ℚ)) ≠ []) ∧
    ((∀ j, j < ([[0], [5], [5]] : List (List ℚ)).length →
        (updatedMin [[0], [5], [5]] (selIter [[0], [5], [5]] 0)).getD j 0
          ≤ (updatedMin [[0], [5], [5]] (selIter [[0], [5], [5]] 0)).getD
              ((selIter [[0], [5], [5]] (0 + 1)).select_idx) 0) ∧
    (∀ j, j < ([[0], [5], [5]] : List (List ℚ)).length →
        (updatedMin [[0], [5], [5]] (selIter [[0], [5], [5]] 0)).getD
            ((selIter [[0], [5], [5]] (0 + 1)).select_idx) 0
          ≤ (updatedMin [[0], [5], [5]] (selIter [[0], [5], [5]] 0)).getD j 0 →
        (selIter [[0], [5], [5]] (0 + 1)).select_idx ≤ j) ∧
    get_coreset_idx [[0], [5], [5]] 2 = [0, 1]) :=
  ⟨by decide, C3_tie_break_lowest_index [[0], [5], [5]] 0 (by decide)⟩

/-- C5: for `1 ≤ m ≤ n ≤ n_total`, the first `m` entries of the
selector's output for target size `n` equal the whole output for target
size `m` — truncating the output is a valid usage pattern. -/
theorem C5_truncation (Z : List (List ℚ)) (m n : Nat)
    (hm : 1 ≤ m) (hmn : m ≤ n) (hn : n ≤ Z.length) :
    (get_coreset_idx Z n).take m = get_coreset_idx Z m := by
  have e : (get_coreset_idx Z n).take ((m - 1) + 1) = get_coreset_idx Z m := by
    rw [get_coreset_idx, get_coreset_idx]
    exact coreset_take Z (m - 1) (n - 1) (by omega)
  rw [← e]
  congr 1
  omega

/-- Witness for C5 with `m = 2`, `n = 3` on the 5-row 1-D matrix. -/
theorem C5_truncation_witness :
    (1 ≤ 2 ∧ 2 ≤ 3 ∧ 3 ≤ ([[0], [1], [2], [5], [9]] : List (List ℚ)).length) ∧
    (get_coreset_idx [[0], [1], [2], [5], [9]] 3).take 2
      = get_coreset_idx [[0], [1], [2], [5], [9]] 2 :=
  ⟨⟨by decide, by decide, by decide⟩,
    C5_truncation [[0], [1], [2], [5], [9]] 2 3
      (by decide) (by decide) (by decide)⟩

/-- C6 counterexample: `get_coreset_idx_randomp` performs no argument
validation at all — there is no `InvalidArgumentError` (or any error
class) in the source.  With `n = 3` on a 2-row working matrix
(`n > n_total`) the selection loop runs to completion and returns the
3-entry sequence `[0, 1, 0]` (with a duplicate); with an empty matrix
and `n = 1` it returns `[0]` without touching the matrix.  (An empty
matrix with `n ≥ 2` dies inside `torch.argmax` with a runtime error,
still not an `InvalidArgumentError`.) -/
theorem C6_counterexample :
    get_coreset_idx [[0], [1]] 3 = [0, 1, 0] ∧
    get_coreset_idx ([] : List (List ℚ)) 1 = [0] :=
  ⟨trace_pair_coreset3, trace_empty_coreset⟩

/-- C6 (amended): the selector performs no argument validation and
never raises an `InvalidArgumentError` (no such class exists in the
source).  On every input where the source returns at all — any
nonempty working matrix with any `n`, or any matrix with `n ≤ 1` — it
returns normally: a sequence of length `max n 1` (the seed plus `n - 1`
loop iterations, Python's `range(n-1)` being empty for `n ≤ 1`), and
exactly `[0]` when `n ≤ 1`.  The only failing region is the empty
matrix with `n ≥ 2`, where the source dies inside `torch.argmax` with a
runtime error — still not an `InvalidArgumentError`; the hypothesis
scopes the theorem away from that region, which the total embedding
(`argmaxList [] = 0`) does not mirror. -/
theorem C6_no_validation (Z : List (List ℚ)) (n : Nat)
    (h : Z ≠ [] ∨ n ≤ 1) :
    (get_coreset_idx Z n).length = max n 1 ∧
    (n ≤ 1 → get_coreset_idx Z n = [0]) := by
  constructor
  · rw [get_coreset_idx, length_coreset]
    omega
  · intro hn
    rw [get_coreset_idx, show n - 1 = 0 by omega, selIter_zero]
    rfl

/-- Witness for C6 with the 2-row working matrix and the out-of-range
`n = 3`. -/
theorem C6_no_validation_witness :
    (([[0], [1]] : List (List ℚ)) ≠ [] ∨ 3 ≤ 1) ∧
    ((get_coreset_idx [[0], [1]] 3).length = max 3 1 ∧
     (3 ≤ 1 → get_coreset_idx [[0], [1]] 3 = [0])) :=
  ⟨Or.inl (by decide), C6_no_validation [[0], [1]] 3 (Or.inl (by decide))⟩

/-- C7: on the working matrix of 5 one-dimensional points
`{0, 1, 2, 5, 9}` with `n = 3`: the loop seeds with index 0; the
min-distance vector is `[0,1,2,5,9]` (stored squared, i.e. the
elementwise square of that list, and recovered exactly by `Real.sqrt`);
index 4 is selected; the distance update inside the next iteration
produces `[0,1,2,4,0]` (again stored squared); index 3 is selected; and
the returned sequence is `[0, 4, 3]`. -/
theorem C7_concrete_trace :
    (selIter [[0], [1], [2], [5], [9]] 0).coreset_idx = [0] ∧
    (selIter [[0], [1], [2], [5], [9]] 0).min_distances
      = List.map (fun x => x ^ 2) [0, 1, 2, 5, 9] ∧
    ((selIter [[0], [1], [2], [5], [9]] 0).min_distances.map
        (fun q : ℚ => Real.sqrt (q : ℝ))) = [0, 1, 2, 5, 9] ∧
    (selIter [[0], [1], [2], [5], [9]] 1).select_idx = 4 ∧
    updatedMin [[0], [1], [2], [5], [9]] (selIter [[0], [1], [2], [5], [9]] 1)
      = List.map (fun x => x ^ 2) [0, 1, 2, 4, 0] ∧
    ((updatedMin [[0], [1], [2], [5], [9]]
        (selIter [[0], [1], [2], [5], [9]] 1)).map
        (fun q : ℚ => Real.sqrt (q : ℝ))) = [0, 1, 2, 4, 0] ∧
    (selIter [[0], [1], [2], [5], [9]] 2).select_idx = 3 ∧
    get_coreset_idx [[0], [1], [2], [5], [9]] 3 = [0, 4, 3] := by
  refine ⟨by rw [trace9_state0], ?_, ?_, by rw [trace9_state1], ?_, ?_,
    by rw [trace9_state2], trace9_coreset3⟩
  · rw [trace9_state0]
    norm_num
  · rw [trace9_state0]
    simp only [List.map_cons, List.map_nil]
    rw [sqrt_ratCast_eq 0 0 (by norm_num) (by norm_num),
      sqrt_ratCast_eq 1 1 (by norm_num) (by norm_num),
      sqrt_ratCast_eq 4 2 (by norm_num) (by norm_num),
      sqrt_ratCast_eq 25 5 (by norm_num) (by norm_num),
      sqrt_ratCast_eq 81 9 (by norm_num) (by norm_num)]
  · rw [trace9_updated2]
    norm_num
  · rw [trace9_updated2]
    simp only [List.map_cons, List.map_nil]
    rw [sqrt_ratCast_eq 0 0 (by norm_num) (by norm_num),
      sqrt_ratCast_eq 1 1 (by norm_num) (by norm_num),
      sqrt_ratCast_eq 4 2 (by norm_num) (by norm_num),
      sqrt_ratCast_eq 16 4 (by norm_num) (by norm_num)]

/-- C8: the min-distance vector is initialized to the (squared)
Euclidean distance of every row to the first selected row (index 0);
every entry is non-increasing from one iteration to the next (each
update takes an elementwise minimum, and zero-forcing only lowers a
nonnegative entry); and the entry of the index selected in iteration
`k + 1` is zero immediately after its selection. -/
theorem C8_min_distance_evolution (Z : List (List ℚ)) (k i : Nat) :
    (selIter Z 0).min_distances = Z.map (fun r => sqDist r (row Z 0)) ∧
    (selIter Z (k + 1)).min_distances.getD i 0
      ≤ (selIter Z k).min_distances.getD i 0 ∧
    (selIter Z (k + 1)).min_distances.getD
      ((selIter Z (k + 1)).select_idx) 0 = 0 := by
  have hlenm : (updatedMin Z (selIter Z k)).length = Z.length :=
    length_updatedMin Z _ (length_min_distances Z k)
  refine ⟨rfl, ?_, ?_⟩
  · rw [selIter_succ, min_distances_selStep]
    by_cases hi : i < Z.length
    · rw [getD_set_zero _ _ _ (by rw [hlenm]; exact hi)]
      split
      · exact min_distances_nonneg Z k i
      · rw [getD_updatedMin Z _ (length_min_distances Z k) i hi]
        exact min_le_right _ _
    · rw [List.getD_eq_default _ _ (by rw [List.length_set, hlenm]; omega),
        List.getD_eq_default _ _ (by rw [length_min_distances]; omega)]
  · rw [selIter_succ, min_distances_selStep, select_idx_selStep]
    by_cases hZ : Z = []
    · subst hZ
      simp [updatedMin, distancesTo]
    · have hidxlt : argmaxList (updatedMin Z (selIter Z k))
          < (updatedMin Z (selIter Z k)).length :=
        argmaxList_lt_length _ (updatedMin_ne_nil Z k hZ)
      rw [getD_set_zero _ _ _ hidxlt]
      simp

/-- C9: the output of `GaussianBlur.__call__` never depends on the
`radius` passed to the constructor, because the blur kernel is built
with the hard-coded `radius=4`: two instances constructed with any two
radii produce identical outputs on every image, for every
interpretation of the external image operations. -/
theorem C9_radius_independent {Img PImg : Type} (ops : ImageOps Img PImg)
    (r1 r2 : ℤ) (img : Img) :
    (GaussianBlur.init r1).call ops img
      = (GaussianBlur.init r2).call ops img := rfl

/-- C10: at every point of the selection loop every entry of the
min-distance vector is non-negative — both in the state at the end of
each iteration and in the freshly min-updated vector inside an
iteration (out-of-range reads return the default 0). -/
theorem C10_min_distances_nonneg (Z : List (List ℚ)) (k i : Nat) :
    0 ≤ (selIter Z k).min_distances.getD i 0 ∧
    0 ≤ (updatedMin Z (selIter Z k)).getD i 0 :=
  ⟨min_distances_nonneg Z k i, updatedMin_nonneg Z k i⟩
